import Mathlib

/-!
Verification of the probe supervisor in src/src-tauri/src/lib.rs of the
bh-pinger repository.

The development shallowly embeds the Rust source:

* the pure line-parsing functions (parse_ping_line, is_timeout_line) become
  Lean functions over List Char / String; the two regular expressions of
  parse_ping_line are embedded as explicit scanners whose behaviour agrees
  with leftmost-first regex matching for those concrete patterns (for both
  patterns, the character classes of the bounded repetitions are disjoint
  from the characters that may follow, so greedy maximal munch is the unique
  successful parse);
* floating-point latencies are modelled as exact rationals computed from the
  captured decimal text;
* the manager state (registry HashMap, stop flags, spawned and killed
  processes, emitted events) becomes an explicit state record, and the two
  Tauri commands toggle_ping and stop_all_pings become state-passing
  functions; spawn outcomes are an input of the model;
* the concurrency between one probe session reader thread and concurrent
  toggle_ping / stop_all_pings calls on that same session becomes a
  small-step transition relation on a per-session state, with one atomic
  step per critical section or per lock-protected flag access of the code.
-/

namespace BhPinger

/-! ## Line parser: parse_ping_line

Rust source, lines 53 to 69:
the function tries the pattern time[=<](digits(.digits-opt))ws-opt ms first
and the pattern time[=<](digits)ws-opt ms second, returning the first
capture parsed as a float, and None when neither matches anywhere. -/

/-- Digits of a captured number interpreted as a natural number. -/
def digitsToNat (l : List Char) : Nat :=
  l.foldl (fun n c => 10 * n + (c.toNat - '0'.toNat)) 0

/-- The float value Rust parses from a capture of shape digits, or
digits dot digits-opt, as an exact rational. -/
def decToRat (cap : List Char) : ℚ :=
  let ip := cap.takeWhile (fun c => c != '.')
  let rest := cap.dropWhile (fun c => c != '.')
  match rest with
  | [] => (digitsToNat ip : ℚ)
  | _ :: fp => (digitsToNat ip : ℚ) + (digitsToNat fp : ℚ) / (10 : ℚ) ^ fp.length

/-- The tail of both regular expressions: optional whitespace then the
literal letters m s. -/
def matchTail (s : List Char) : Bool :=
  "ms".data.isPrefixOf (s.dropWhile Char.isWhitespace)

/-- Matcher for the part of the first regex after the time marker:
one-or-more digits, an optional dot, zero-or-more digits, then matchTail.
Returns the capture group. -/
def matchAfterUnix (s : List Char) : Option (List Char) :=
  let d1 := s.takeWhile Char.isDigit
  let r1 := s.dropWhile Char.isDigit
  if d1.isEmpty then none
  else if r1.head? = some '.' then
    let r2 := r1.tail
    let d2 := r2.takeWhile Char.isDigit
    let r3 := r2.dropWhile Char.isDigit
    if matchTail r3 then some (d1 ++ '.' :: d2) else none
  else if matchTail r1 then some d1 else none

/-- Matcher for the part of the second regex after the time marker:
one-or-more digits then matchTail. Returns the capture group. -/
def matchAfterWin (s : List Char) : Option (List Char) :=
  let d1 := s.takeWhile Char.isDigit
  let r1 := s.dropWhile Char.isDigit
  if d1.isEmpty then none
  else if matchTail r1 then some d1 else none

/-- Both regexes start with the literal time followed by an equals sign or a
less-than sign. -/
def hasTimeMarker (s : List Char) : Bool :=
  "time=".data.isPrefixOf s || "time<".data.isPrefixOf s

/-- Leftmost scan of the first regex over the line. -/
def scanUnix : List Char → Option (List Char)
  | [] => none
  | c :: rest =>
    match (if hasTimeMarker (c :: rest) then matchAfterUnix ((c :: rest).drop 5)
           else none) with
    | some cap => some cap
    | none => scanUnix rest

/-- Leftmost scan of the second regex over the line. -/
def scanWin : List Char → Option (List Char)
  | [] => none
  | c :: rest =>
    match (if hasTimeMarker (c :: rest) then matchAfterWin ((c :: rest).drop 5)
           else none) with
    | some cap => some cap
    | none => scanWin rest

/-- Embedding of fn parse_ping_line (lib.rs lines 53 to 69). The captured
text always parses as a float in Rust, modelled here as an exact rational. -/
def parse_ping_line (line : String) : Option ℚ :=
  match scanUnix line.data with
  | some cap => some (decToRat cap)
  | none =>
    match scanWin line.data with
    | some cap => some (decToRat cap)
    | none => none

/-- Substring test, embedding of str contains. -/
def containsSub (hay pat : List Char) : Bool :=
  match hay with
  | [] => pat.isEmpty
  | c :: t => pat.isPrefixOf (c :: t) || containsSub t pat

/-- Embedding of fn is_timeout_line (lib.rs lines 72 to 79). Rust
to_lowercase is modelled per character, which agrees on the ASCII phrases
tested here. -/
def is_timeout_line (line : String) : Bool :=
  let lower := line.data.map Char.toLower
  containsSub lower "request timed out".data
    || containsSub lower "request timeout".data
    || containsSub lower "100% packet loss".data
    || containsSub lower "destination host unreachable".data
    || containsSub lower "network is unreachable".data

/-! ## Manager state and the two Tauri commands

Rust source, lines 12 to 27 (PingManager, PingProcess), 81 to 197
(toggle_ping) and 199 to 206 (stop_all_pings). The HashMap of running
processes becomes an association list with unique keys, the shared
Arc Mutex bool stop flags become a heap of booleans addressed by numeric
identifiers, and spawned / killed record which process identities have been
created by spawn and sent a kill signal. The reader thread spawned on the
start path is modelled separately by the session transition system below. -/

/-- One registry entry: the child process handle and the stop flag shared
with the reader thread, both as identifiers into the model state. -/
structure PingProcessM where
  pid : Nat
  flagId : Nat
deriving DecidableEq

/-- The whole mutable state touched by toggle_ping and stop_all_pings. -/
structure MgrState where
  processes : List (String × PingProcessM)
  flags : Nat → Bool
  nextFlag : Nat
  nextPid : Nat
  spawned : List Nat
  killed : List Nat
  events : List (String × String)

/-- HashMap lookup on the association list. -/
def findProc (ps : List (String × PingProcessM)) (id : String) : Option PingProcessM :=
  (ps.find? (fun e => e.1 = id)).map (fun e => e.2)

/-- HashMap remove on the association list (keys are unique, so filtering
every binding of the key equals removing the single binding). -/
def eraseProc (ps : List (String × PingProcessM)) (id : String) : List (String × PingProcessM) :=
  ps.filter (fun e => e.1 ≠ id)

/-- Write true into one stop flag, as the stop paths do. -/
def setFlagTrue (f : Nat → Bool) (i : Nat) : Nat → Bool :=
  fun j => if j = i then true else f j

/-- Allocate a fresh flag initialised to a given value. -/
def setFlagVal (f : Nat → Bool) (i : Nat) (b : Bool) : Nat → Bool :=
  fun j => if j = i then b else f j

/-- The character whitelist of the address validation (lib.rs line 108).
Rust char is_alphanumeric is Unicode; the model uses the ASCII
alphanumerics, which agree on every address character exercised here. -/
def is_allowed (c : Char) : Bool :=
  c.isAlphanum || c = '.' || c = '-' || c = ':'

/-- Environment input of toggle_ping: what cmd.spawn() and
child.stdout.take() yield for the new child. -/
inductive SpawnOutcome
  | fail (msg : String)
  | ok (hasStdout : Bool)

/-- Embedding of fn toggle_ping (lib.rs lines 81 to 197), as a function from
the manager state and the call arguments to the returned Result and the
updated state.

* Stop path (lines 90 to 104): if the registry holds an entry for the
  identifier it is removed, its stop flag is set, its child is killed, a
  ping-stopped event is emitted and Ok(false) is returned — all before the
  address is validated.
* Start path: the address whitelist is checked (lines 106 to 110), the
  child is spawned (line 138; a failure is surfaced as the formatted spawn
  error), its stdout is taken (line 139; when absent the stdout error is
  returned with the child left spawned, unkilled and unregistered), a fresh
  false stop flag is allocated and the session is inserted (lines 141 to
  151), and Ok(true) is returned. -/
def toggle_ping (st : MgrState) (server_id address : String) (count : Nat)
    (sp : SpawnOutcome) : Except String Bool × MgrState :=
  match findProc st.processes server_id with
  | some p =>
    (Except.ok false,
      { st with
          processes := eraseProc st.processes server_id
          flags := setFlagTrue st.flags p.flagId
          killed := p.pid :: st.killed
          events := st.events ++ [("ping-stopped", server_id)] })
  | none =>
    if !(address.data.all is_allowed) then
      (Except.error "Invalid address format", st)
    else
      match sp with
      | SpawnOutcome.fail e => (Except.error ("Failed to spawn ping: " ++ e), st)
      | SpawnOutcome.ok hasStdout =>
        let pid := st.nextPid
        let st1 := { st with spawned := pid :: st.spawned, nextPid := st.nextPid + 1 }
        if !hasStdout then
          (Except.error "Failed to get stdout", st1)
        else
          let fid := st1.nextFlag
          (Except.ok true,
            { st1 with
                nextFlag := fid + 1
                flags := setFlagVal st1.flags fid false
                processes := (server_id, ⟨pid, fid⟩) :: st1.processes })

/-- Embedding of fn stop_all_pings (lib.rs lines 199 to 206): drain the map,
setting every stop flag and killing every child; nothing waits on the reader
threads and no event is emitted. -/
def stop_all_pings (st : MgrState) : MgrState :=
  { st with
      processes := []
      flags := st.processes.foldl (fun f e => setFlagTrue f e.2.flagId) st.flags
      killed := st.processes.foldl (fun k e => e.2.pid :: k) st.killed }

/-! ## One probe session under concurrency

Transition system for a single session: the state of its registry entry,
its stop flag, whether its child was killed, the program counter of its
reader thread (lib.rs lines 158 to 194), and the ordered list of events
emitted for this session. Interleaved environment steps are the stop path
of a concurrent toggle_ping on the same identifier (lines 90 to 104) and
the effect of stop_all_pings on this entry (lines 199 to 206); both are
single steps because the code performs them under the registry lock.

The reader thread is cut at its lock-protected accesses: reading the stop
flag at the top of the loop body is one step (checking), parsing the
already-read line and emitting its event is a later separate step
(processing) — toggle_ping can run in between, which is exactly the
in-flight-line race; removing the entry from the registry is one step
(removing), and the final flag read plus the conditional ping-complete
emission is one step (finishing), which is faithful because after the
removal no path of the code can reach this session's flag to write it. -/

/-- Events of one session, named after the Tauri event labels. -/
inductive PEvent
  | result (time_ms : ℚ)
  | timeout
  | stopped
  | complete
deriving DecidableEq

/-- Program counter of the reader thread. -/
inductive Phase
  | checking (l : String) (rest : List String)
  | processing (l : String) (rest : List String)
  | removing
  | finishing
  | done
deriving DecidableEq

/-- State of one session together with its reader thread. -/
structure SState where
  inReg : Bool
  flag : Bool
  killed : Bool
  phase : Phase
  trace : List PEvent

/-- Events the reader emits for one line (lib.rs lines 167 to 179): the
latency parse is tried first, then the timeout phrases, else nothing. -/
def lineEvents (l : String) : List PEvent :=
  match parse_ping_line l with
  | some t => [PEvent.result t]
  | none => if is_timeout_line l then [PEvent.timeout] else []

/-- Entering the for loop: with no line left the loop body is never run. -/
def startPhase : List String → Phase
  | [] => Phase.removing
  | l :: r => Phase.checking l r

/-- Session state right after toggle_ping inserted the entry and spawned the
reader, with the lines the reader will obtain from the child's stdout. -/
def initState (lines : List String) : SState :=
  ⟨true, false, false, startPhase lines, []⟩

/-- One atomic step of the session system. -/
inductive Step : SState → SState → Prop
  | checkStop (g k : Bool) (l : String) (rest : List String) (tr : List PEvent) :
      Step ⟨g, true, k, Phase.checking l rest, tr⟩
        ⟨g, true, k, Phase.removing, tr⟩
  | checkGo (g k : Bool) (l : String) (rest : List String) (tr : List PEvent) :
      Step ⟨g, false, k, Phase.checking l rest, tr⟩
        ⟨g, false, k, Phase.processing l rest, tr⟩
  | processLine (g f k : Bool) (l : String) (rest : List String) (tr : List PEvent) :
      Step ⟨g, f, k, Phase.processing l rest, tr⟩
        ⟨g, f, k, startPhase rest, tr ++ lineEvents l⟩
  | removeEntry (g f k : Bool) (tr : List PEvent) :
      Step ⟨g, f, k, Phase.removing, tr⟩
        ⟨false, f, k, Phase.finishing, tr⟩
  | finishComplete (g k : Bool) (tr : List PEvent) :
      Step ⟨g, false, k, Phase.finishing, tr⟩
        ⟨g, false, k, Phase.done, tr ++ [PEvent.complete]⟩
  | finishStopped (g k : Bool) (tr : List PEvent) :
      Step ⟨g, true, k, Phase.finishing, tr⟩
        ⟨g, true, k, Phase.done, tr⟩
  | toggleStop (f k : Bool) (ph : Phase) (tr : List PEvent) :
      Step ⟨true, f, k, ph, tr⟩
        ⟨false, true, true, ph, tr ++ [PEvent.stopped]⟩
  | stopAllCancel (f k : Bool) (ph : Phase) (tr : List PEvent) :
      Step ⟨true, f, k, ph, tr⟩
        ⟨false, true, true, ph, tr⟩

/-- Reachability along any interleaving. -/
abbrev Reaches : SState → SState → Prop :=
  Relation.ReflTransGen Step

/-- Terminal lifecycle events. -/
def isTerminal : PEvent → Bool
  | PEvent.stopped => true
  | PEvent.complete => true
  | _ => false

/-- Per-line sample events. -/
def isLineEv : PEvent → Bool
  | PEvent.result _ => true
  | PEvent.timeout => true
  | _ => false

/-- Number of terminal events in a trace. -/
def termCount (tr : List PEvent) : Nat :=
  (tr.filter isTerminal).length

/-- Number of per-line sample events in a trace. -/
def lineCount (tr : List PEvent) : Nat :=
  (tr.filter isLineEv).length

/-- The part of the trace strictly after the first occurrence of an event. -/
def tailAfter (e : PEvent) : List PEvent → Option (List PEvent)
  | [] => none
  | x :: r => if x = e then some r else tailAfter e r

/-- Inductive invariant of the session system: event counting, the coupling
between the stop flag, registry membership and emitted terminal events, and
the shape of the trace after a terminal event. -/
structure Inv (s : SState) : Prop where
  term_le : termCount s.trace ≤ 1
  stopped_flag : PEvent.stopped ∈ s.trace → s.flag = true ∧ s.inReg = false
  complete_done : PEvent.complete ∈ s.trace → s.phase = Phase.done ∧ s.flag = false
  reg_no_term : s.inReg = true → termCount s.trace = 0
  fin_no_reg : s.phase = Phase.finishing ∨ s.phase = Phase.done → s.inReg = false
  complete_last : ∀ a, tailAfter PEvent.complete s.trace = some a → a = []
  stopped_tail : ∀ a, tailAfter PEvent.stopped s.trace = some a →
    lineCount a ≤ 1 ∧ termCount a = 0
  stopped_tail_processing : ∀ a l r, tailAfter PEvent.stopped s.trace = some a →
    s.phase = Phase.processing l r → lineCount a = 0
  done_complete : s.phase = Phase.done → s.flag = false → PEvent.complete ∈ s.trace

/-! ## Helper lemmas for the line parser -/

theorem takeWhile_append_not (p : Char → Bool) (a : List Char) (x : Char) (r : List Char)
    (ha : ∀ c ∈ a, p c = true) (hx : p x = false) :
    (a ++ x :: r).takeWhile p = a := by
  induction a with
  | nil => simp [List.takeWhile_cons, hx]
  | cons c t ih =>
    have hc := ha c (by simp)
    simp only [List.cons_append, List.takeWhile_cons, hc, if_true]
    rw [ih (fun d hd => ha d (by simp [hd]))]

theorem dropWhile_append_not (p : Char → Bool) (a : List Char) (x : Char) (r : List Char)
    (ha : ∀ c ∈ a, p c = true) (hx : p x = false) :
    (a ++ x :: r).dropWhile p = x :: r := by
  induction a with
  | nil => simp [List.dropWhile_cons, hx]
  | cons c t ih =>
    have hc := ha c (by simp)
    simp only [List.cons_append, List.dropWhile_cons, hc, if_true]
    exact ih (fun d hd => ha d (by simp [hd]))

theorem matchAfterUnix_dec (a b sp : List Char)
    (ha : a ≠ []) (hda : ∀ c ∈ a, c.isDigit = true) (hdb : ∀ c ∈ b, c.isDigit = true)
    (hsp : sp = [' '] ∨ sp = []) :
    matchAfterUnix (a ++ ('.' :: (b ++ (sp ++ "ms".data)))) = some (a ++ '.' :: b) := by
  have hae : a.isEmpty = false := by
    cases a with
    | nil => exact absurd rfl ha
    | cons x t => rfl
  rcases hsp with rfl | rfl
  · show matchAfterUnix (a ++ ('.' :: (b ++ [' ', 'm', 's']))) = some (a ++ '.' :: b)
    have htk : (a ++ ('.' :: (b ++ [' ', 'm', 's']))).takeWhile Char.isDigit = a :=
      takeWhile_append_not _ _ _ _ hda (by decide)
    have hdr : (a ++ ('.' :: (b ++ [' ', 'm', 's']))).dropWhile Char.isDigit
        = '.' :: (b ++ [' ', 'm', 's']) :=
      dropWhile_append_not _ _ _ _ hda (by decide)
    have htk2 : (b ++ [' ', 'm', 's']).takeWhile Char.isDigit = b :=
      takeWhile_append_not _ _ _ _ hdb (by decide)
    have hdr2 : (b ++ [' ', 'm', 's']).dropWhile Char.isDigit = [' ', 'm', 's'] :=
      dropWhile_append_not _ _ _ _ hdb (by decide)
    have hmt : matchTail [' ', 'm', 's'] = true := by decide
    simp only [matchAfterUnix, htk, hdr, List.head?_cons, List.tail_cons, htk2, hdr2]
    simp [hae, hmt]
  · show matchAfterUnix (a ++ ('.' :: (b ++ ['m', 's']))) = some (a ++ '.' :: b)
    have htk : (a ++ ('.' :: (b ++ ['m', 's']))).takeWhile Char.isDigit = a :=
      takeWhile_append_not _ _ _ _ hda (by decide)
    have hdr : (a ++ ('.' :: (b ++ ['m', 's']))).dropWhile Char.isDigit
        = '.' :: (b ++ ['m', 's']) :=
      dropWhile_append_not _ _ _ _ hda (by decide)
    have htk2 : (b ++ ['m', 's']).takeWhile Char.isDigit = b :=
      takeWhile_append_not _ _ _ _ hdb (by decide)
    have hdr2 : (b ++ ['m', 's']).dropWhile Char.isDigit = ['m', 's'] :=
      dropWhile_append_not _ _ _ _ hdb (by decide)
    have hmt : matchTail ['m', 's'] = true := by decide
    simp only [matchAfterUnix, htk, hdr, List.head?_cons, List.tail_cons, htk2, hdr2]
    simp [hae, hmt]

theorem matchAfterUnix_int (a sp : List Char)
    (ha : a ≠ []) (hda : ∀ c ∈ a, c.isDigit = true) (hsp : sp = [' '] ∨ sp = []) :
    matchAfterUnix (a ++ (sp ++ "ms".data)) = some a := by
  have hae : a.isEmpty = false := by
    cases a with
    | nil => exact absurd rfl ha
    | cons x t => rfl
  rcases hsp with rfl | rfl
  · show matchAfterUnix (a ++ [' ', 'm', 's']) = some a
    have htk : (a ++ [' ', 'm', 's']).takeWhile Char.isDigit = a :=
      takeWhile_append_not _ _ _ _ hda (by decide)
    have hdr : (a ++ [' ', 'm', 's']).dropWhile Char.isDigit = [' ', 'm', 's'] :=
      dropWhile_append_not _ _ _ _ hda (by decide)
    have hmt : matchTail [' ', 'm', 's'] = true := by decide
    simp only [matchAfterUnix, htk, hdr, List.head?_cons]
    simp [hae, hmt]
  · show matchAfterUnix (a ++ ['m', 's']) = some a
    have htk : (a ++ ['m', 's']).takeWhile Char.isDigit = a :=
      takeWhile_append_not _ _ _ _ hda (by decide)
    have hdr : (a ++ ['m', 's']).dropWhile Char.isDigit = ['m', 's'] :=
      dropWhile_append_not _ _ _ _ hda (by decide)
    have hmt : matchTail ['m', 's'] = true := by decide
    simp only [matchAfterUnix, htk, hdr, List.head?_cons]
    simp [hae, hmt]

theorem scanUnix_marker (m : Char) (rest cap : List Char) (hm : m = '=' ∨ m = '<')
    (h : matchAfterUnix rest = some cap) :
    scanUnix ('t' :: 'i' :: 'm' :: 'e' :: m :: rest) = some cap := by
  rcases hm with rfl | rfl
  · have hpre : ("time=".data.isPrefixOf ('t' :: 'i' :: 'm' :: 'e' :: '=' :: rest)) = true :=
      List.isPrefixOf_iff_prefix.mpr (List.prefix_append "time=".data rest)
    have hmark : hasTimeMarker ('t' :: 'i' :: 'm' :: 'e' :: '=' :: rest) = true := by
      simp [hasTimeMarker, hpre]
    simp [scanUnix, hmark, h]
  · have hpre : ("time<".data.isPrefixOf ('t' :: 'i' :: 'm' :: 'e' :: '<' :: rest)) = true :=
      List.isPrefixOf_iff_prefix.mpr (List.prefix_append "time<".data rest)
    have hmark : hasTimeMarker ('t' :: 'i' :: 'm' :: 'e' :: '<' :: rest) = true := by
      simp [hasTimeMarker, hpre]
    simp [scanUnix, hmark, h]

theorem decToRat_dec (a b : List Char)
    (hda : ∀ c ∈ a, c.isDigit = true) :
    decToRat (a ++ '.' :: b)
      = (digitsToNat a : ℚ) + (digitsToNat b : ℚ) / (10 : ℚ) ^ b.length := by
  have hne : ∀ c ∈ a, (c != '.') = true := by
    intro c hc
    have hd := hda c hc
    rw [bne_iff_ne]
    intro h
    subst h
    simp at hd
  have htk := takeWhile_append_not (fun c => c != '.') a '.' b hne (by decide)
  have hdr := dropWhile_append_not (fun c => c != '.') a '.' b hne (by decide)
  simp only [decToRat, htk, hdr]

theorem decToRat_int (a : List Char) (hda : ∀ c ∈ a, c.isDigit = true) :
    decToRat a = (digitsToNat a : ℚ) := by
  have hne : ∀ c ∈ a, (c != '.') = true := by
    intro c hc
    have hd := hda c hc
    rw [bne_iff_ne]
    intro h
    subst h
    simp at hd
  have htk : a.takeWhile (fun c => c != '.') = a := List.takeWhile_eq_self_iff.mpr hne
  have hdr : a.dropWhile (fun c => c != '.') = [] := List.dropWhile_eq_nil_iff.mpr hne
  simp only [decToRat, htk, hdr]

theorem scanUnix_eq_none (l : List Char)
    (h1 : ¬ "time=".data <:+: l) (h2 : ¬ "time<".data <:+: l) :
    scanUnix l = none := by
  induction l with
  | nil => rfl
  | cons c t ih =>
    have hp1 : ("time=".data.isPrefixOf (c :: t)) = false := by
      rw [Bool.eq_false_iff]
      intro hp
      exact h1 ((List.isPrefixOf_iff_prefix.mp hp).isInfix)
    have hp2 : ("time<".data.isPrefixOf (c :: t)) = false := by
      rw [Bool.eq_false_iff]
      intro hp
      exact h2 ((List.isPrefixOf_iff_prefix.mp hp).isInfix)
    have hm : hasTimeMarker (c :: t) = false := by
      simp [hasTimeMarker, hp1, hp2]
    have ht := ih (fun h => h1 (List.infix_cons h)) (fun h => h2 (List.infix_cons h))
    simp [scanUnix, hm, ht]

theorem scanWin_eq_none (l : List Char)
    (h1 : ¬ "time=".data <:+: l) (h2 : ¬ "time<".data <:+: l) :
    scanWin l = none := by
  induction l with
  | nil => rfl
  | cons c t ih =>
    have hp1 : ("time=".data.isPrefixOf (c :: t)) = false := by
      rw [Bool.eq_false_iff]
      intro hp
      exact h1 ((List.isPrefixOf_iff_prefix.mp hp).isInfix)
    have hp2 : ("time<".data.isPrefixOf (c :: t)) = false := by
      rw [Bool.eq_false_iff]
      intro hp
      exact h2 ((List.isPrefixOf_iff_prefix.mp hp).isInfix)
    have hm : hasTimeMarker (c :: t) = false := by
      simp [hasTimeMarker, hp1, hp2]
    have ht := ih (fun h => h1 (List.infix_cons h)) (fun h => h2 (List.infix_cons h))
    simp [scanWin, hm, ht]

theorem parse_ping_line_none (line : String)
    (h1 : ¬ "time=".data <:+: line.data) (h2 : ¬ "time<".data <:+: line.data) :
    parse_ping_line line = none := by
  simp [parse_ping_line, scanUnix_eq_none line.data h1 h2, scanWin_eq_none line.data h1 h2]

theorem containsSub_iff (hay pat : List Char) :
    containsSub hay pat = true ↔ pat <:+: hay := by
  induction hay with
  | nil => simp [containsSub, List.isEmpty_iff, List.infix_nil]
  | cons c t ih =>
    simp [containsSub, List.infix_cons_iff, List.isPrefixOf_iff_prefix, ih]

theorem parse_ping_line_mk_some (l cap : List Char) (h : scanUnix l = some cap) :
    parse_ping_line ⟨l⟩ = some (decToRat cap) := by
  show (match scanUnix l with
    | some cap => some (decToRat cap)
    | none =>
      match scanWin l with
      | some cap => some (decToRat cap)
      | none => none) = some (decToRat cap)
  rw [h]

/-- C5: for lines of the decimal shapes time=d.d ms and time<d.dms the first
regex matches with the full decimal capture and parse_ping_line returns its
exact value; for the integer shape time=d ms it returns the integer value;
and a line with no occurrence of the time markers yields none, absence of a
match being the none value rather than an error. -/
theorem C5_parse_ping_line :
    (∀ (a b sp : List Char) (m : Char),
      a ≠ [] → (∀ c ∈ a, c.isDigit = true) → (∀ c ∈ b, c.isDigit = true) →
      (m = '=' ∨ m = '<') → (sp = [' '] ∨ sp = []) →
      parse_ping_line ⟨'t' :: 'i' :: 'm' :: 'e' :: m :: (a ++ ('.' :: (b ++ (sp ++ "ms".data))))⟩
          = some ((digitsToNat a : ℚ) + (digitsToNat b : ℚ) / (10 : ℚ) ^ b.length)
        ∧ parse_ping_line ⟨'t' :: 'i' :: 'm' :: 'e' :: m :: (a ++ (sp ++ "ms".data))⟩
          = some ((digitsToNat a : ℚ)))
    ∧ (∀ line : String,
        ¬ ("time=".data <:+: line.data) → ¬ ("time<".data <:+: line.data) →
        parse_ping_line line = none) := by
  constructor
  · intro a b sp m ha hda hdb hm hsp
    constructor
    · have h1 := matchAfterUnix_dec a b sp ha hda hdb hsp
      have h2 := scanUnix_marker m _ _ hm h1
      rw [parse_ping_line_mk_some _ _ h2, decToRat_dec a b hda]
    · have h1 := matchAfterUnix_int a sp ha hda hsp
      have h2 := scanUnix_marker m _ _ hm h1
      rw [parse_ping_line_mk_some _ _ h2, decToRat_int a hda]
  · exact parse_ping_line_none

/-- Witness for C5 at the concrete lines of the specification. -/
theorem C5_parse_ping_line_witness :
    parse_ping_line "time=12.3 ms"
        = some ((digitsToNat ['1', '2'] : ℚ) + (digitsToNat ['3'] : ℚ) / (10 : ℚ) ^ (1 : Nat))
    ∧ ((digitsToNat ['1', '2'] : ℚ) + (digitsToNat ['3'] : ℚ) / (10 : ℚ) ^ (1 : Nat)
        = 123 / 10)
    ∧ parse_ping_line "time<45ms" = some ((digitsToNat ['4', '5'] : ℚ))
    ∧ ((digitsToNat ['4', '5'] : ℚ) = 45)
    ∧ parse_ping_line "Request timed out." = none := by
  have h := C5_parse_ping_line
  refine ⟨?_, ?_, ?_, ?_, h.2 "Request timed out." (by decide) (by decide)⟩
  · exact (h.1 ['1', '2'] ['3'] [' '] '=' (by decide) (by decide) (by decide)
      (Or.inl rfl) (Or.inl rfl)).1
  · show ((12 : Nat) : ℚ) + ((3 : Nat) : ℚ) / (10 : ℚ) ^ (1 : Nat) = 123 / 10
    norm_num
  · exact (h.1 ['4', '5'] [] [] '<' (by decide) (by decide) (by decide)
      (Or.inr rfl) (Or.inr rfl)).2
  · show ((45 : Nat) : ℚ) = 45
    norm_num

/-- C6: is_timeout_line holds exactly when the lowercased line contains one
of the five fixed phrases, and a line matching neither the latency pattern
nor a timeout phrase produces no event in the reader loop body. -/
theorem C6_is_timeout_line : ∀ line : String,
    (is_timeout_line line = true ↔
      ("request timed out".data <:+: line.data.map Char.toLower
        ∨ "request timeout".data <:+: line.data.map Char.toLower
        ∨ "100% packet loss".data <:+: line.data.map Char.toLower
        ∨ "destination host unreachable".data <:+: line.data.map Char.toLower
        ∨ "network is unreachable".data <:+: line.data.map Char.toLower))
    ∧ (parse_ping_line line = none → is_timeout_line line = false →
        lineEvents line = []) := by
  intro line
  constructor
  · simp [is_timeout_line, containsSub_iff, or_assoc]
  · intro h1 h2
    simp [lineEvents, h1, h2]

/-- Witness for C6 at concrete lines. -/
theorem C6_is_timeout_line_witness :
    is_timeout_line "Request TIMED out." = true
    ∧ lineEvents "64 bytes from host" = [] := by
  have h := C6_is_timeout_line
  constructor
  · exact (h "Request TIMED out.").1.mpr (Or.inl (by decide))
  · exact (h "64 bytes from host").2 (by decide) (by decide)

/-! ## Helper lemmas for the manager model -/

theorem findProc_erase (ps : List (String × PingProcessM)) (id : String) :
    findProc (eraseProc ps id) id = none := by
  have h : (eraseProc ps id).find? (fun e => e.1 = id) = none := by
    rw [List.find?_eq_none]
    intro x hx
    have hm := (List.mem_filter.mp hx).2
    simp only [ne_eq, decide_not, Bool.not_eq_eq_eq_not, Bool.not_true,
      decide_eq_false_iff_not] at hm
    simp [hm]
  simp [findProc, h]

theorem findProc_cons_self (ps : List (String × PingProcessM)) (id : String)
    (p : PingProcessM) : findProc ((id, p) :: ps) id = some p := by
  simp [findProc, List.find?_cons]

theorem foldl_setFlagTrue_mono (l : List (String × PingProcessM)) (f : Nat → Bool)
    (i : Nat) (h : f i = true) :
    (l.foldl (fun g e => setFlagTrue g e.2.flagId) f) i = true := by
  induction l generalizing f with
  | nil => exact h
  | cons e t ih =>
    refine ih _ ?_
    simp [setFlagTrue, h]

theorem foldl_setFlagTrue_mem (l : List (String × PingProcessM)) (f : Nat → Bool)
    (e : String × PingProcessM) (he : e ∈ l) :
    (l.foldl (fun g e => setFlagTrue g e.2.flagId) f) e.2.flagId = true := by
  induction l generalizing f with
  | nil => cases he
  | cons x t ih =>
    rcases List.mem_cons.mp he with rfl | hmem
    · exact foldl_setFlagTrue_mono t _ _ (by simp [setFlagTrue])
    · exact ih _ hmem

theorem foldl_kill_mono (l : List (String × PingProcessM)) (k : List Nat) (x : Nat)
    (h : x ∈ k) : x ∈ l.foldl (fun k e => e.2.pid :: k) k := by
  induction l generalizing k with
  | nil => exact h
  | cons e t ih => exact ih _ (List.mem_cons_of_mem _ h)

theorem foldl_kill_mem (l : List (String × PingProcessM)) (k : List Nat)
    (e : String × PingProcessM) (he : e ∈ l) :
    e.2.pid ∈ l.foldl (fun k e => e.2.pid :: k) k := by
  induction l generalizing k with
  | nil => cases he
  | cons x t ih =>
    rcases List.mem_cons.mp he with rfl | hmem
    · exact foldl_kill_mono t _ _ (List.mem_cons_self _ _)
    · exact ih _ hmem

theorem spawn_error_ne (e : String) :
    ("Failed to spawn ping: " ++ e) ≠ "Invalid address format" := by
  intro h
  have hlen := congrArg String.length h
  rw [String.length_append] at hlen
  have h22 : ("Failed to spawn ping: " : String).length = 22 := rfl
  have h22b : ("Invalid address format" : String).length = 22 := rfl
  rw [h22, h22b] at hlen
  have he : e.length = 0 := by omega
  have hed : e.data = [] := List.length_eq_zero.mp he
  have hE : e = "" := by
    cases e with
    | mk d =>
      simp only at hed
      rw [hed]
  rw [hE] at h
  exact absurd h (by decide)

/-! ## Claims about toggle_ping and stop_all_pings -/

/-- C3: toggle_ping with a registered identifier removes the entry, sets its
stop flag, kills its process, emits ping-stopped and returns false without
spawning anything; with an unregistered identifier, a valid address and a
successful spawn it spawns one process, inserts the session with a fresh
false flag and returns true. -/
theorem C3_toggle_ping :
    ∀ (st : MgrState) (server_id address : String) (count : Nat) (sp : SpawnOutcome),
    (∀ p, findProc st.processes server_id = some p →
      (toggle_ping st server_id address count sp).1 = Except.ok false
      ∧ (toggle_ping st server_id address count sp).2.processes
          = eraseProc st.processes server_id
      ∧ findProc (toggle_ping st server_id address count sp).2.processes server_id = none
      ∧ (toggle_ping st server_id address count sp).2.flags p.flagId = true
      ∧ p.pid ∈ (toggle_ping st server_id address count sp).2.killed
      ∧ (toggle_ping st server_id address count sp).2.events
          = st.events ++ [("ping-stopped", server_id)]
      ∧ (toggle_ping st server_id address count sp).2.spawned = st.spawned)
    ∧ (findProc st.processes server_id = none → address.data.all is_allowed = true →
      (toggle_ping st server_id address count (SpawnOutcome.ok true)).1 = Except.ok true
      ∧ findProc (toggle_ping st server_id address count (SpawnOutcome.ok true)).2.processes
          server_id = some ⟨st.nextPid, st.nextFlag⟩
      ∧ (toggle_ping st server_id address count (SpawnOutcome.ok true)).2.spawned
          = st.nextPid :: st.spawned
      ∧ (toggle_ping st server_id address count (SpawnOutcome.ok true)).2.flags st.nextFlag
          = false) := by
  intro st server_id address count sp
  constructor
  · intro p hp
    refine ⟨?_, ?_, ?_, ?_, ?_, ?_, ?_⟩ <;>
      simp [toggle_ping, hp, setFlagTrue, findProc_erase]
  · intro hnone hall
    refine ⟨?_, ?_, ?_, ?_⟩ <;>
      simp [toggle_ping, hnone, hall, findProc_cons_self, setFlagVal]

/-- Witness for C3, exercising the stop path on a one-entry registry and the
start path on an empty registry. -/
theorem C3_toggle_ping_witness :
    (toggle_ping ⟨[("s1", ⟨7, 3⟩)], fun _ => false, 4, 8, [7], [], []⟩
        "s1" "not an address!" 0 (SpawnOutcome.fail "x")).1 = Except.ok false
    ∧ (toggle_ping ⟨[], fun _ => false, 0, 0, [], [], []⟩
        "s1" "8.8.8.8" 4 (SpawnOutcome.ok true)).1 = Except.ok true := by
  have h1 := (C3_toggle_ping ⟨[("s1", ⟨7, 3⟩)], fun _ => false, 4, 8, [7], [], []⟩
    "s1" "not an address!" 0 (SpawnOutcome.fail "x")).1 ⟨7, 3⟩ (by decide)
  have h2 := (C3_toggle_ping ⟨[], fun _ => false, 0, 0, [], [], []⟩
    "s1" "8.8.8.8" 4 (SpawnOutcome.fail "x")).2 (by decide) (by decide)
  exact ⟨h1.1, h2.1⟩

/-- C4: on the start path an address with a character outside the whitelist
makes toggle_ping fail with the invalid-address error and leave the state
untouched, so nothing is spawned; an address inside the whitelist is never
rejected by the validation. -/
theorem C4_validation :
    ∀ (st : MgrState) (server_id address : String) (count : Nat) (sp : SpawnOutcome),
    findProc st.processes server_id = none →
    ((∃ c ∈ address.data, is_allowed c = false) →
      toggle_ping st server_id address count sp = (Except.error "Invalid address format", st))
    ∧ ((∀ c ∈ address.data, is_allowed c = true) →
      (toggle_ping st server_id address count sp).1 ≠ Except.error "Invalid address format") := by
  intro st server_id address count sp hnone
  constructor
  · rintro ⟨c, hc, hbad⟩
    have hA : address.data.all is_allowed = false := by
      cases hA : address.data.all is_allowed with
      | false => rfl
      | true =>
        have := List.all_eq_true.mp hA c hc
        rw [hbad] at this
        cases this
    simp [toggle_ping, hnone, hA]
  · intro hgood
    have hA : address.data.all is_allowed = true := List.all_eq_true.mpr hgood
    cases sp with
    | fail e =>
      simp only [toggle_ping, hnone, hA, Bool.not_true, Bool.false_eq_true, if_false]
      intro h
      have := Except.error.inj h
      exact spawn_error_ne e this
    | ok hasStdout =>
      cases hasStdout with
      | false =>
        simp only [toggle_ping, hnone, hA, Bool.not_true, Bool.false_eq_true, if_false,
          Bool.not_false, if_true]
        intro h
        have := Except.error.inj h
        exact absurd this (by decide)
      | true =>
        simp [toggle_ping, hnone, hA]

/-- Witness for C4 at the addresses of the specification. -/
theorem C4_validation_witness :
    toggle_ping ⟨[], fun _ => false, 0, 0, [], [], []⟩ "s1" "8.8.8.8; rm -rf /" 4
        (SpawnOutcome.ok true)
      = (Except.error "Invalid address format", ⟨[], fun _ => false, 0, 0, [], [], []⟩)
    ∧ (toggle_ping ⟨[], fun _ => false, 0, 0, [], [], []⟩ "s1" "8.8.8.8" 4
        (SpawnOutcome.ok true)).1 ≠ Except.error "Invalid address format" := by
  have h := C4_validation ⟨[], fun _ => false, 0, 0, [], [], []⟩ "s1" "8.8.8.8; rm -rf /" 4
    (SpawnOutcome.ok true) (by decide)
  have h2 := C4_validation ⟨[], fun _ => false, 0, 0, [], [], []⟩ "s1" "8.8.8.8" 4
    (SpawnOutcome.ok true) (by decide)
  exact ⟨h.1 ⟨';', by decide, by decide⟩, h2.2 (by decide)⟩

/-- C7: stop_all_pings empties the registry, sets the stop flag of every
registered session and kills each of its processes, while emitting nothing
and not interacting with the reader threads. -/
theorem C7_stop_all_pings : ∀ st : MgrState,
    (stop_all_pings st).processes = []
    ∧ (∀ e ∈ st.processes,
        (stop_all_pings st).flags e.2.flagId = true
        ∧ e.2.pid ∈ (stop_all_pings st).killed)
    ∧ (stop_all_pings st).events = st.events
    ∧ (stop_all_pings st).spawned = st.spawned := by
  intro st
  refine ⟨rfl, ?_, rfl, rfl⟩
  intro e he
  exact ⟨foldl_setFlagTrue_mem _ _ _ he, foldl_kill_mem _ _ _ he⟩

/-- Witness for C7 on a two-session registry. -/
theorem C7_stop_all_pings_witness :
    (stop_all_pings ⟨[("a", ⟨1, 0⟩), ("b", ⟨2, 1⟩)], fun _ => false, 2, 3, [1, 2], [], []⟩).processes = []
    ∧ (stop_all_pings ⟨[("a", ⟨1, 0⟩), ("b", ⟨2, 1⟩)], fun _ => false, 2, 3, [1, 2], [], []⟩).flags 0 = true
    ∧ (2 : Nat) ∈ (stop_all_pings ⟨[("a", ⟨1, 0⟩), ("b", ⟨2, 1⟩)], fun _ => false, 2, 3, [1, 2], [], []⟩).killed := by
  have h := C7_stop_all_pings ⟨[("a", ⟨1, 0⟩), ("b", ⟨2, 1⟩)], fun _ => false, 2, 3, [1, 2], [], []⟩
  refine ⟨h.1, ?_, ?_⟩
  · exact (h.2.1 ("a", ⟨1, 0⟩) (by decide)).1
  · exact (h.2.1 ("b", ⟨2, 1⟩) (by decide)).2

/-- C8: when the spawned child exposes no stdout, toggle_ping returns the
stream error, but the child it has just spawned is neither killed nor
registered — the process is left orphaned, contradicting the claim that it
is reaped or killed before the error returns. -/
theorem C8_stream_unavailable :
    (toggle_ping ⟨[], fun _ => false, 0, 0, [], [], []⟩ "s1" "8.8.8.8" 4
        (SpawnOutcome.ok false)).1 = Except.error "Failed to get stdout"
    ∧ (toggle_ping ⟨[], fun _ => false, 0, 0, [], [], []⟩ "s1" "8.8.8.8" 4
        (SpawnOutcome.ok false)).2.spawned = [0]
    ∧ (toggle_ping ⟨[], fun _ => false, 0, 0, [], [], []⟩ "s1" "8.8.8.8" 4
        (SpawnOutcome.ok false)).2.killed = []
    ∧ (toggle_ping ⟨[], fun _ => false, 0, 0, [], [], []⟩ "s1" "8.8.8.8" 4
        (SpawnOutcome.ok false)).2.processes = [] := by
  refine ⟨rfl, rfl, rfl, rfl⟩

/-- C10: when the identifier has a live registry entry, toggle_ping always
takes the stop path and returns false, with a result independent of the
address, the count and the spawn outcome — so an invalid address never
causes an error on the stop path. -/
theorem C10_stop_before_validation :
    ∀ (st : MgrState) (server_id : String) (p : PingProcessM)
      (a₁ a₂ : String) (c₁ c₂ : Nat) (sp₁ sp₂ : SpawnOutcome),
    findProc st.processes server_id = some p →
    (toggle_ping st server_id a₁ c₁ sp₁).1 = Except.ok false
    ∧ toggle_ping st server_id a₁ c₁ sp₁ = toggle_ping st server_id a₂ c₂ sp₂ := by
  intro st server_id p a₁ a₂ c₁ c₂ sp₁ sp₂ hp
  constructor
  · simp [toggle_ping, hp]
  · simp [toggle_ping, hp]

/-- Witness for C10: an invalid address and a zero count on the stop path. -/
theorem C10_stop_before_validation_witness :
    (toggle_ping ⟨[("s1", ⟨7, 3⟩)], fun _ => false, 4, 8, [7], [], []⟩
        "s1" "8.8.8.8; rm -rf /" 0 (SpawnOutcome.fail "x")).1 = Except.ok false := by
  exact (C10_stop_before_validation ⟨[("s1", ⟨7, 3⟩)], fun _ => false, 4, 8, [7], [], []⟩
    "s1" ⟨7, 3⟩ "8.8.8.8; rm -rf /" "y" 0 1 (SpawnOutcome.fail "x") (SpawnOutcome.ok true)
    (by decide)).1

/-! ## Trace lemmas for the session system -/

theorem termCount_append (a b : List PEvent) :
    termCount (a ++ b) = termCount a + termCount b := by
  simp [termCount, List.filter_append]

theorem lineCount_append (a b : List PEvent) :
    lineCount (a ++ b) = lineCount a + lineCount b := by
  simp [lineCount, List.filter_append]

theorem termCount_eq_zero (tr : List PEvent) :
    termCount tr = 0 ↔ PEvent.stopped ∉ tr ∧ PEvent.complete ∉ tr := by
  induction tr with
  | nil => simp [termCount]
  | cons e t ih =>
    cases e <;> simp [termCount, List.filter_cons, isTerminal] at ih ⊢ <;> tauto

theorem one_le_termCount (e : PEvent) (tr : List PEvent) (he : e ∈ tr)
    (ht : isTerminal e = true) : 1 ≤ termCount tr := by
  have hm : e ∈ tr.filter isTerminal := List.mem_filter.mpr ⟨he, ht⟩
  have hlen := List.length_pos.mpr (List.ne_nil_of_mem hm)
  simpa [termCount] using hlen

theorem tailAfter_eq_none (e : PEvent) (tr : List PEvent) :
    tailAfter e tr = none ↔ e ∉ tr := by
  induction tr with
  | nil => simp [tailAfter]
  | cons x t ih =>
    by_cases hx : x = e
    · subst hx
      simp [tailAfter]
    · simp [tailAfter, hx, ih, Ne.symm hx]

theorem mem_of_tailAfter_some (e : PEvent) (tr a : List PEvent)
    (h : tailAfter e tr = some a) : e ∈ tr := by
  by_contra hmem
  rw [(tailAfter_eq_none e tr).mpr hmem] at h
  exact Option.noConfusion h

theorem tailAfter_append_some (e : PEvent) (a b u : List PEvent)
    (h : tailAfter e a = some u) : tailAfter e (a ++ b) = some (u ++ b) := by
  induction a generalizing u with
  | nil => exact Option.noConfusion h
  | cons x t ih =>
    by_cases hx : x = e
    · subst hx
      simp only [tailAfter, if_pos rfl] at h
      obtain rfl := Option.some.inj h
      simp [tailAfter]
    · simp only [tailAfter, if_neg hx] at h
      simp only [List.cons_append, tailAfter, if_neg hx]
      exact ih u h

theorem tailAfter_append_none (e : PEvent) (a b : List PEvent) (h : e ∉ a) :
    tailAfter e (a ++ b) = tailAfter e b := by
  induction a with
  | nil => rfl
  | cons x t ih =>
    have hx : x ≠ e := fun hh => h (hh ▸ List.mem_cons_self x t)
    simp only [List.cons_append, tailAfter, if_neg hx]
    exact ih (fun hm => h (List.mem_cons_of_mem _ hm))

theorem tailAfter_single (e : PEvent) : tailAfter e [e] = some [] := by
  simp [tailAfter]

theorem lineEvents_facts (l : String) :
    termCount (lineEvents l) = 0
    ∧ lineCount (lineEvents l) ≤ 1
    ∧ PEvent.stopped ∉ lineEvents l
    ∧ PEvent.complete ∉ lineEvents l := by
  unfold lineEvents
  cases hp : parse_ping_line l with
  | some t => simp [termCount, lineCount, List.filter_cons, isTerminal, isLineEv]
  | none =>
    cases ht : is_timeout_line l with
    | true => simp [termCount, lineCount, List.filter_cons, isTerminal, isLineEv]
    | false => simp [termCount, lineCount]

theorem startPhase_ne_processing (r : List String) (l' : String) (r' : List String) :
    startPhase r ≠ Phase.processing l' r' := by
  cases r <;> simp [startPhase]

theorem startPhase_ne_finishing (r : List String) : startPhase r ≠ Phase.finishing := by
  cases r <;> simp [startPhase]

theorem startPhase_ne_done (r : List String) : startPhase r ≠ Phase.done := by
  cases r <;> simp [startPhase]

/-! ## The invariant holds initially and is preserved -/

theorem inv_init (lines : List String) : Inv (initState lines) := by
  refine ⟨?_, ?_, ?_, ?_, ?_, ?_, ?_, ?_, ?_⟩
  · exact Nat.zero_le 1
  · intro h
    exact absurd h (List.not_mem_nil _)
  · intro h
    exact absurd h (List.not_mem_nil _)
  · intro _
    rfl
  · intro h
    rcases h with h | h
    · exact absurd h (startPhase_ne_finishing lines)
    · exact absurd h (startPhase_ne_done lines)
  · intro a h
    exact Option.noConfusion h
  · intro a h
    exact Option.noConfusion h
  · intro a l r h _
    exact Option.noConfusion h
  · intro h
    exact absurd h (startPhase_ne_done lines)

theorem inv_step (s s' : SState) (hs : Inv s) (h : Step s s') : Inv s' := by
  cases h with
  | checkStop g k l rest tr =>
    refine ⟨hs.term_le, ?_, ?_, hs.reg_no_term, ?_, hs.complete_last, hs.stopped_tail, ?_, ?_⟩
    · intro hm
      exact hs.stopped_flag hm
    · intro hm
      exact absurd (hs.complete_done hm).1 (by simp)
    · intro h
      rcases h with h | h <;> exact absurd h (by simp)
    · intro a l' r' ha hp
      exact absurd hp (by simp)
    · intro hp
      exact absurd hp (by simp)
  | checkGo g k l rest tr =>
    refine ⟨hs.term_le, ?_, ?_, hs.reg_no_term, ?_, hs.complete_last, hs.stopped_tail, ?_, ?_⟩
    · intro hm
      exact hs.stopped_flag hm
    · intro hm
      exact absurd (hs.complete_done hm).1 (by simp)
    · intro h
      rcases h with h | h <;> exact absurd h (by simp)
    · intro a l' r' ha hp
      have hm := mem_of_tailAfter_some _ _ _ ha
      exact absurd (hs.stopped_flag hm).1 (by simp)
    · intro hp
      exact absurd hp (by simp)
  | processLine g f k l rest tr =>
    obtain ⟨hT0, hL1, hSno, hCno⟩ := lineEvents_facts l
    refine ⟨?_, ?_, ?_, ?_, ?_, ?_, ?_, ?_, ?_⟩
    · rw [termCount_append, hT0]
      simpa using hs.term_le
    · intro hm
      rcases List.mem_append.mp hm with hm | hm
      · exact hs.stopped_flag hm
      · exact absurd hm hSno
    · intro hm
      rcases List.mem_append.mp hm with hm | hm
      · exact absurd (hs.complete_done hm).1 (by simp)
      · exact absurd hm hCno
    · intro hreg
      rw [termCount_append, hs.reg_no_term hreg, hT0]
    · intro h
      rcases h with h | h
      · exact absurd h (startPhase_ne_finishing rest)
      · exact absurd h (startPhase_ne_done rest)
    · intro a ha
      have hctr : PEvent.complete ∉ tr := fun hm => absurd (hs.complete_done hm).1 (by simp)
      have hnone : tailAfter PEvent.complete (tr ++ lineEvents l) = none := by
        refine (tailAfter_eq_none _ _).mpr ?_
        intro hm
        rcases List.mem_append.mp hm with hm | hm
        · exact hctr hm
        · exact hCno hm
      rw [hnone] at ha
      exact Option.noConfusion ha
    · intro a ha
      rcases hx : tailAfter PEvent.stopped tr with _ | x
      · have hnotr := (tailAfter_eq_none _ _).mp hx
        rw [tailAfter_append_none PEvent.stopped tr (lineEvents l) hnotr] at ha
        rw [(tailAfter_eq_none _ _).mpr hSno] at ha
        exact Option.noConfusion ha
      · rw [tailAfter_append_some PEvent.stopped tr (lineEvents l) x hx] at ha
        obtain rfl := (Option.some.inj ha).symm
        have h0 : lineCount x = 0 := hs.stopped_tail_processing x l rest hx rfl
        have hterm : termCount x = 0 := (hs.stopped_tail x hx).2
        constructor
        · rw [lineCount_append, h0]
          simpa using hL1
        · rw [termCount_append, hterm, hT0]
    · intro a l' r' ha hp
      exact absurd hp (startPhase_ne_processing rest l' r')
    · intro hp
      exact absurd hp (startPhase_ne_done rest)
  | removeEntry g f k tr =>
    refine ⟨hs.term_le, ?_, ?_, ?_, ?_, hs.complete_last, hs.stopped_tail, ?_, ?_⟩
    · intro hm
      exact ⟨(hs.stopped_flag hm).1, rfl⟩
    · intro hm
      exact absurd (hs.complete_done hm).1 (by simp)
    · intro hreg
      exact absurd hreg (by simp)
    · intro _
      rfl
    · intro a l' r' ha hp
      exact absurd hp (by simp)
    · intro hp
      exact absurd hp (by simp)
  | finishComplete g k tr =>
    have hSno : PEvent.stopped ∉ tr := fun hm => absurd (hs.stopped_flag hm).1 (by simp)
    have hCno : PEvent.complete ∉ tr := fun hm => absurd (hs.complete_done hm).1 (by simp)
    have hT0 : termCount tr = 0 := (termCount_eq_zero tr).mpr ⟨hSno, hCno⟩
    refine ⟨?_, ?_, ?_, ?_, ?_, ?_, ?_, ?_, ?_⟩
    · rw [termCount_append, hT0]
      decide
    · intro hm
      rcases List.mem_append.mp hm with hm | hm
      · exact absurd hm hSno
      · simp at hm
    · intro _
      exact ⟨rfl, rfl⟩
    · intro hreg
      have hg := hs.fin_no_reg (Or.inl rfl)
      rw [hg] at hreg
      exact absurd hreg (by simp)
    · intro _
      exact hs.fin_no_reg (Or.inl rfl)
    · intro a ha
      rw [tailAfter_append_none PEvent.complete tr [PEvent.complete] hCno,
        tailAfter_single] at ha
      exact (Option.some.inj ha).symm
    · intro a ha
      have hno : PEvent.stopped ∉ tr ++ [PEvent.complete] := by
        intro hm
        rcases List.mem_append.mp hm with hm | hm
        · exact hSno hm
        · simp at hm
      rw [(tailAfter_eq_none _ _).mpr hno] at ha
      exact Option.noConfusion ha
    · intro a l' r' ha hp
      exact absurd hp (by simp)
    · intro _ _
      exact List.mem_append.mpr (Or.inr (by simp))
  | finishStopped g k tr =>
    refine ⟨hs.term_le, ?_, ?_, hs.reg_no_term, ?_, hs.complete_last, hs.stopped_tail, ?_, ?_⟩
    · intro hm
      exact ⟨rfl, (hs.stopped_flag hm).2⟩
    · intro hm
      exact absurd (hs.complete_done hm).1 (by simp)
    · intro _
      exact hs.fin_no_reg (Or.inl rfl)
    · intro a l' r' ha hp
      exact absurd hp (by simp)
    · intro _ hf
      exact absurd hf (by simp)
  | toggleStop f k ph tr =>
    have hT0 : termCount tr = 0 := hs.reg_no_term rfl
    obtain ⟨hSno, hCno⟩ := (termCount_eq_zero tr).mp hT0
    refine ⟨?_, ?_, ?_, ?_, ?_, ?_, ?_, ?_, ?_⟩
    · rw [termCount_append, hT0]
      decide
    · intro _
      exact ⟨rfl, rfl⟩
    · intro hm
      rcases List.mem_append.mp hm with hm | hm
      · exact absurd hm hCno
      · simp at hm
    · intro hreg
      exact absurd hreg (by simp)
    · intro _
      rfl
    · intro a ha
      have hno : PEvent.complete ∉ tr ++ [PEvent.stopped] := by
        intro hm
        rcases List.mem_append.mp hm with hm | hm
        · exact hCno hm
        · simp at hm
      rw [(tailAfter_eq_none _ _).mpr hno] at ha
      exact Option.noConfusion ha
    · intro a ha
      rw [tailAfter_append_none _ _ _ hSno, tailAfter_single] at ha
      obtain rfl := (Option.some.inj ha)
      exact ⟨by decide, by decide⟩
    · intro a l' r' ha hp
      rw [tailAfter_append_none _ _ _ hSno, tailAfter_single] at ha
      obtain rfl := (Option.some.inj ha)
      decide
    · intro _ hf
      exact absurd hf (by simp)
  | stopAllCancel f k ph tr =>
    have hT0 : termCount tr = 0 := hs.reg_no_term rfl
    obtain ⟨hSno, hCno⟩ := (termCount_eq_zero tr).mp hT0
    refine ⟨hs.term_le, ?_, ?_, ?_, ?_, ?_, ?_, ?_, ?_⟩
    · intro hm
      exact absurd hm hSno
    · intro hm
      exact absurd hm hCno
    · intro hreg
      exact absurd hreg (by simp)
    · intro _
      rfl
    · intro a ha
      rw [(tailAfter_eq_none _ _).mpr hCno] at ha
      exact Option.noConfusion ha
    · intro a ha
      rw [(tailAfter_eq_none _ _).mpr hSno] at ha
      exact Option.noConfusion ha
    · intro a l' r' ha hp
      rw [(tailAfter_eq_none _ _).mpr hSno] at ha
      exact Option.noConfusion ha
    · intro _ hf
      exact absurd hf (by simp)

theorem inv_reachable (lines : List String) (s : SState)
    (h : Reaches (initState lines) s) : Inv s := by
  induction h with
  | refl => exact inv_init lines
  | tail hR hstep ih => exact inv_step _ _ ih hstep

/-! ## Claims about the session system -/

/-- C1 (amended): in every reachable state of a session at most one terminal
event has been emitted, never ping-stopped and ping-complete together; when
the reader has finished, a session stopped through toggle_ping has the one
ping-stopped as its only terminal event, a session never cancelled has
exactly one ping-complete, and a session cancelled only through
stop_all_pings has no terminal event at all. -/
theorem C1_terminal_events (lines : List String) (s : SState)
    (h : Reaches (initState lines) s) :
    termCount s.trace ≤ 1
    ∧ ¬(PEvent.stopped ∈ s.trace ∧ PEvent.complete ∈ s.trace)
    ∧ (s.phase = Phase.done →
        ((PEvent.stopped ∈ s.trace →
            termCount s.trace = 1 ∧ PEvent.complete ∉ s.trace)
        ∧ (s.flag = false →
            PEvent.complete ∈ s.trace ∧ termCount s.trace = 1
              ∧ PEvent.stopped ∉ s.trace)
        ∧ (s.flag = true → PEvent.stopped ∉ s.trace → termCount s.trace = 0))) := by
  have hi := inv_reachable lines s h
  refine ⟨hi.term_le, ?_, ?_⟩
  · rintro ⟨hsm, hcm⟩
    have h1 := (hi.stopped_flag hsm).1
    have h2 := (hi.complete_done hcm).2
    rw [h1] at h2
    exact Bool.noConfusion h2
  · intro hdone
    refine ⟨?_, ?_, ?_⟩
    · intro hsm
      have hcno : PEvent.complete ∉ s.trace := by
        intro hcm
        have h1 := (hi.stopped_flag hsm).1
        have h2 := (hi.complete_done hcm).2
        rw [h1] at h2
        exact Bool.noConfusion h2
      exact ⟨Nat.le_antisymm hi.term_le (one_le_termCount _ _ hsm rfl), hcno⟩
    · intro hflag
      have hcm := hi.done_complete hdone hflag
      have hsno : PEvent.stopped ∉ s.trace := by
        intro hsm
        have h1 := (hi.stopped_flag hsm).1
        rw [h1] at hflag
        exact Bool.noConfusion hflag
      exact ⟨hcm, Nat.le_antisymm hi.term_le (one_le_termCount _ _ hcm rfl), hsno⟩
    · intro hflag hsno
      have hcno : PEvent.complete ∉ s.trace := by
        intro hcm
        have h2 := (hi.complete_done hcm).2
        rw [hflag] at h2
        exact Bool.noConfusion h2
      exact (termCount_eq_zero _).mpr ⟨hsno, hcno⟩

/-- Witness for C1: the natural run of a session whose output has ended. -/
theorem C1_terminal_events_witness :
    termCount [PEvent.complete] ≤ 1 ∧ PEvent.complete ∈ [PEvent.complete] := by
  have s1 : Step (initState []) ⟨false, false, false, Phase.finishing, []⟩ :=
    Step.removeEntry true false false []
  have s2 : Step ⟨false, false, false, Phase.finishing, []⟩
      ⟨false, false, false, Phase.done, [PEvent.complete]⟩ :=
    Step.finishComplete false false []
  have hch : Reaches (initState []) ⟨false, false, false, Phase.done, [PEvent.complete]⟩ :=
    Relation.ReflTransGen.head s1 (Relation.ReflTransGen.head s2 Relation.ReflTransGen.refl)
  have h := C1_terminal_events [] _ hch
  exact ⟨h.1, ((h.2.2 rfl).2.1 rfl).1⟩

/-- Counterexample to C1 as stated: under the stop_all_pings interleaving a
session for which cancellation was requested reaches the done phase with an
empty trace — no terminal event is ever emitted, so it is false that exactly
one terminal event is emitted under every interleaving. -/
theorem C1_counterexample :
    Reaches (initState ["reply"]) ⟨false, true, true, Phase.done, []⟩
    ∧ termCount ([] : List PEvent) = 0 := by
  constructor
  · have s1 : Step (initState ["reply"])
        ⟨false, true, true, Phase.checking "reply" [], []⟩ :=
      Step.stopAllCancel false false (Phase.checking "reply" []) []
    have s2 : Step ⟨false, true, true, Phase.checking "reply" [], []⟩
        ⟨false, true, true, Phase.removing, []⟩ :=
      Step.checkStop false true "reply" [] []
    have s3 : Step ⟨false, true, true, Phase.removing, []⟩
        ⟨false, true, true, Phase.finishing, []⟩ :=
      Step.removeEntry false true true []
    have s4 : Step ⟨false, true, true, Phase.finishing, []⟩
        ⟨false, true, true, Phase.done, []⟩ :=
      Step.finishStopped false true []
    exact Relation.ReflTransGen.head s1 (Relation.ReflTransGen.head s2
      (Relation.ReflTransGen.head s3 (Relation.ReflTransGen.head s4
        Relation.ReflTransGen.refl)))
  · rfl

/-- C2 (amended): in every reachable state of a session, nothing follows
ping-complete in the trace, and the part of the trace after ping-stopped
holds no terminal event and at most one line event — the one line that had
already passed its cancellation check when the stop arrived. -/
theorem C2_terminal_last (lines : List String) (s : SState)
    (h : Reaches (initState lines) s) :
    (∀ a, tailAfter PEvent.complete s.trace = some a → a = [])
    ∧ (∀ a, tailAfter PEvent.stopped s.trace = some a →
        lineCount a ≤ 1 ∧ termCount a = 0) := by
  have hi := inv_reachable lines s h
  exact ⟨hi.complete_last, hi.stopped_tail⟩

/-- Witness for C2 after a toggle stop. -/
theorem C2_terminal_last_witness :
    lineCount ([] : List PEvent) ≤ 1 ∧ termCount ([] : List PEvent) = 0 := by
  have s1 : Step (initState ["x"])
      ⟨false, true, true, Phase.checking "x" [], [PEvent.stopped]⟩ :=
    Step.toggleStop false false (Phase.checking "x" []) []
  have hch : Reaches (initState ["x"])
      ⟨false, true, true, Phase.checking "x" [], [PEvent.stopped]⟩ :=
    Relation.ReflTransGen.head s1 Relation.ReflTransGen.refl
  exact (C2_terminal_last ["x"] _ hch).2 [] (by simp [tailAfter])

/-- Counterexample to C2 as stated: the reader passes its cancellation check
for a line, a concurrent toggle_ping stop then emits ping-stopped, and the
reader still emits the ping-result of that line — an event for the session
after its terminal event. -/
theorem C2_counterexample :
    Reaches (initState ["time=12.3 ms"])
      ⟨false, true, true, Phase.removing,
        [PEvent.stopped, PEvent.result (decToRat ['1', '2', '.', '3'])]⟩
    ∧ isLineEv (PEvent.result (decToRat ['1', '2', '.', '3'])) = true
    ∧ isTerminal PEvent.stopped = true := by
  refine ⟨?_, rfl, rfl⟩
  have s1 : Step (initState ["time=12.3 ms"])
      ⟨true, false, false, Phase.processing "time=12.3 ms" [], []⟩ :=
    Step.checkGo true false "time=12.3 ms" [] []
  have s2 : Step ⟨true, false, false, Phase.processing "time=12.3 ms" [], []⟩
      ⟨false, true, true, Phase.processing "time=12.3 ms" [], [PEvent.stopped]⟩ :=
    Step.toggleStop false false (Phase.processing "time=12.3 ms" []) []
  have s3 : Step ⟨false, true, true, Phase.processing "time=12.3 ms" [], [PEvent.stopped]⟩
      ⟨false, true, true, Phase.removing,
        [PEvent.stopped, PEvent.result (decToRat ['1', '2', '.', '3'])]⟩ := by
    have hl : [PEvent.stopped] ++ lineEvents "time=12.3 ms"
        = [PEvent.stopped, PEvent.result (decToRat ['1', '2', '.', '3'])] := rfl
    have hstep := Step.processLine false true true "time=12.3 ms" [] [PEvent.stopped]
    rw [hl] at hstep
    exact hstep
  exact Relation.ReflTransGen.head s1 (Relation.ReflTransGen.head s2
    (Relation.ReflTransGen.head s3 Relation.ReflTransGen.refl))

/-- C9: from any session state about to perform the cancellation check with
the flag observed set, the reader never enters the processing phase again
and no further line event is emitted along any continuation — neither the
current line nor any later one is processed. -/
theorem C9_flag_checked (s s' : SState) (l : String) (rest : List String)
    (hph : s.phase = Phase.checking l rest) (hfl : s.flag = true)
    (h : Reaches s s') :
    lineCount s'.trace = lineCount s.trace
    ∧ ∀ l' r', s'.phase ≠ Phase.processing l' r' := by
  suffices hsuf : s'.flag = true
      ∧ (s'.phase = Phase.checking l rest ∨ s'.phase = Phase.removing
          ∨ s'.phase = Phase.finishing ∨ s'.phase = Phase.done)
      ∧ lineCount s'.trace = lineCount s.trace by
    refine ⟨hsuf.2.2, ?_⟩
    intro l' r' hp
    rcases hsuf.2.1 with h1 | h1 | h1 | h1 <;> rw [h1] at hp <;> simp at hp
  induction h with
  | refl => exact ⟨hfl, Or.inl hph, rfl⟩
  | tail hR hstep ih =>
    obtain ⟨ihf, ihp, ihl⟩ := ih
    cases hstep with
    | checkStop g k l2 rest2 tr =>
      exact ⟨rfl, Or.inr (Or.inl rfl), ihl⟩
    | checkGo g k l2 rest2 tr =>
      exact absurd ihf (by simp)
    | processLine g f k l2 rest2 tr =>
      rcases ihp with h1 | h1 | h1 | h1 <;> simp at h1
    | removeEntry g f k tr =>
      exact ⟨ihf, Or.inr (Or.inr (Or.inl rfl)), ihl⟩
    | finishComplete g k tr =>
      exact absurd ihf (by simp)
    | finishStopped g k tr =>
      exact ⟨rfl, Or.inr (Or.inr (Or.inr rfl)), ihl⟩
    | toggleStop f k ph tr =>
      refine ⟨rfl, ihp, ?_⟩
      rw [lineCount_append]
      have h0 : lineCount [PEvent.stopped] = 0 := rfl
      rw [h0, Nat.add_zero]
      exact ihl
    | stopAllCancel f k ph tr =>
      exact ⟨rfl, ihp, ihl⟩

/-- Witness for C9: a checking state with the flag set steps to removal. -/
theorem C9_flag_checked_witness :
    lineCount ([] : List PEvent) = lineCount ([] : List PEvent)
    ∧ Phase.removing ≠ Phase.processing "y" [] := by
  have hch : Reaches ⟨true, true, false, Phase.checking "x" [], []⟩
      ⟨true, true, false, Phase.removing, []⟩ :=
    Relation.ReflTransGen.head (Step.checkStop true false "x" [] [])
      Relation.ReflTransGen.refl
  have h := C9_flag_checked ⟨true, true, false, Phase.checking "x" [], []⟩
    ⟨true, true, false, Phase.removing, []⟩ "x" [] rfl rfl hch
  exact ⟨h.1, h.2 "y" []⟩

/-- Sanity checks of the parser embedding on full probe output lines: the
unix-format and windows-format example lines of the source comments parse to
their latencies, and unmatched lines parse to none. -/
theorem parse_ping_line_examples :
    parse_ping_line "64 bytes from 8.8.8.8: icmp_seq=1 ttl=64 time=12.3 ms"
        = some (decToRat ['1', '2', '.', '3'])
    ∧ parse_ping_line "Reply from 8.8.8.8: bytes=32 time=45ms TTL=64"
        = some (decToRat ['4', '5'])
    ∧ parse_ping_line "Request timed out." = none
    ∧ is_timeout_line "Request TIMED out." = true
    ∧ is_timeout_line "64 bytes" = false := by
  exact ⟨rfl, rfl, by decide, by decide, by decide⟩

end BhPinger
